import Mathlib

/-!
Shallow embedding of the zentui reactive core (src/app/mod.rs, src/app/issue_card.rs,
src/edit.rs, src/zenhub.rs, src/github.rs) used to settle the specification claims.

Rust `usize` values are modelled as `Nat` (with Rust's `saturating_sub` matching
truncated `Nat` subtraction).  The pending-task counter is modelled as `Int` so that
its non-negativity is a provable property rather than a typing artefact.  Fallible
operations — in particular expressions that can panic in Rust (out-of-bounds
indexing, `Result::unwrap`) — are embedded in `Option`, with `none` as the
panic/error branch.
-/

namespace Zentui

/-! ### Data model (src/zenhub.rs and src/github.rs) -/

/-- `IssueNumber(pub usize)` from src/github.rs / src/zenhub.rs. -/
abbrev IssueNumber := Nat

/-- `IssueRef` from src/zenhub.rs. -/
structure IssueRef where
  number : IssueNumber
  is_epic : Bool
deriving DecidableEq, Repr

/-- `Pipeline` from src/zenhub.rs. -/
structure Pipeline where
  id : String
  name : String
  issues : List IssueRef
deriving DecidableEq, Repr

/-- `Board` from src/zenhub.rs. -/
structure Board where
  pipelines : List Pipeline
deriving DecidableEq, Repr

/-- `zi::Colour` as used by src/github.rs (`from_hex_colour` builds `u8` components). -/
structure Colour where
  red : Nat
  green : Nat
  blue : Nat
deriving DecidableEq, Repr

/-- `Label` from src/github.rs. -/
structure Label where
  name : String
  color : Colour
deriving DecidableEq, Repr

/-- `IssueState` from src/github.rs. -/
inductive IssueState where
  | isOpen
  | isClosed
deriving DecidableEq, Repr

/-- `Issue` from src/github.rs (`PullRequestRefs` is a unit struct). -/
structure Issue where
  number : IssueNumber
  title : String
  body : String
  state : IssueState
  labels : List Label
  pull_request : Option Unit
deriving DecidableEq, Repr

/-! ### View state (src/app/mod.rs) -/

/-- `FutureValue<T>` from src/app/mod.rs. -/
inductive FutureValue (T : Type) where
  | Pending
  | Ready (value : T)
  | Error (message : String)
deriving DecidableEq, Repr

/-- `PipelineView` from src/app/mod.rs. -/
structure PipelineView where
  pipeline : Pipeline
  hidden : Bool
  selected_issue : Nat
deriving DecidableEq, Repr

/-- `PipelineView::select_issue`: `cmp::min(issue_index, issues.len().saturating_sub(1))`. -/
def PipelineView.select_issue (pv : PipelineView) (issue_index : Nat) : PipelineView :=
  { pv with selected_issue := min issue_index (pv.pipeline.issues.length - 1) }

/-- `impl From<Pipeline> for PipelineView`. -/
def PipelineView.ofPipeline (pipeline : Pipeline) : PipelineView :=
  { pipeline := pipeline, hidden := false, selected_issue := 0 }

/-- `BoardView` from src/app/mod.rs. -/
structure BoardView where
  pipelines : List PipelineView
  selected_pipeline : Nat
deriving DecidableEq, Repr

/-- `BoardView::default()` (derived `Default`). -/
def BoardView.default : BoardView :=
  { pipelines := [], selected_pipeline := 0 }

/-- The loop body of `BoardView::select_next_pipeline`.  Each iteration sets
`sp' = min (sp+1) maxIdx`, indexes `pipelines[sp']` (`none` = index panic), stops
with the new selection on a visible pipeline, and stops without selecting
(`some none`) when the hidden probe has reached `maxIdx`. -/
def selectNextLoop (ps : List PipelineView) (maxIdx sp : Nat) : Option (Option Nat) :=
  match ps[min (sp + 1) maxIdx]? with
  | none => none
  | some pv =>
    if pv.hidden then
      if h : min (sp + 1) maxIdx = maxIdx then some none
      else selectNextLoop ps maxIdx (min (sp + 1) maxIdx)
    else some (some (min (sp + 1) maxIdx))
termination_by maxIdx - sp
decreasing_by omega

/-- `BoardView::select_next_pipeline` (src/app/mod.rs lines 86-98);
`none` is the indexing-panic branch. -/
def BoardView.select_next_pipeline (b : BoardView) : Option BoardView :=
  match selectNextLoop b.pipelines (b.pipelines.length - 1) b.selected_pipeline with
  | none => none
  | some none => some b
  | some (some sp) => some { b with selected_pipeline := sp }

/-- The loop body of `BoardView::select_previous_pipeline`.  Each iteration sets
`sp' = sp.saturating_sub 1`, indexes `pipelines[sp']`, stops with the new selection
on a visible pipeline, and stops without selecting when the hidden probe is 0. -/
def selectPrevLoop (ps : List PipelineView) (sp : Nat) : Option (Option Nat) :=
  match ps[sp - 1]? with
  | none => none
  | some pv =>
    if pv.hidden then
      if h : sp - 1 = 0 then some none
      else selectPrevLoop ps (sp - 1)
    else some (some (sp - 1))
termination_by sp
decreasing_by omega

/-- `BoardView::select_previous_pipeline` (src/app/mod.rs lines 100-111). -/
def BoardView.select_previous_pipeline (b : BoardView) : Option BoardView :=
  match selectPrevLoop b.pipelines b.selected_pipeline with
  | none => none
  | some none => some b
  | some (some sp) => some { b with selected_pipeline := sp }

/-- The re-selection chain of `BoardView::hide_pipeline` (src/app/mod.rs lines
116-124): three sequential ifs, each re-reading `pipelines[selected_pipeline]`
(a potentially panicking index, hence `none` branches): scan backward, scan
forward, and finally fall back to index 0. -/
def BoardView.reselectAfterHide (b1 : BoardView) : Option BoardView :=
  match b1.pipelines[b1.selected_pipeline]? with
  | none => none
  | some sel1 =>
    match (if sel1.hidden then b1.select_previous_pipeline else some b1) with
    | none => none
    | some b2 =>
      match b2.pipelines[b2.selected_pipeline]? with
      | none => none
      | some sel2 =>
        match (if sel2.hidden then b2.select_next_pipeline else some b2) with
        | none => none
        | some b3 =>
          match b3.pipelines[b3.selected_pipeline]? with
          | none => none
          | some sel3 =>
            some (if sel3.hidden then { b3 with selected_pipeline := 0 } else b3)

/-- `BoardView::hide_pipeline` (src/app/mod.rs lines 113-126): `get_mut` is a
no-op when out of range; otherwise mark the pipeline hidden and run the
re-selection chain. -/
def BoardView.hide_pipeline (b : BoardView) (pipeline_index : Nat) : Option BoardView :=
  match b.pipelines[pipeline_index]? with
  | none => some b
  | some pv =>
    BoardView.reselectAfterHide
      { b with pipelines := b.pipelines.set pipeline_index { pv with hidden := true } }

/-- `BoardView::show_all_pipelines` (src/app/mod.rs lines 128-132). -/
def BoardView.show_all_pipelines (b : BoardView) : BoardView :=
  { b with pipelines := b.pipelines.map (fun pv => { pv with hidden := false }) }

/-- `impl From<Board> for BoardView`. -/
def BoardView.ofBoard (board : Board) : BoardView :=
  { pipelines := board.pipelines.map PipelineView.ofPipeline, selected_pipeline := 0 }

/-! ### Selection invariant of `BoardView` -/

/-- The spec's selection property: `selected_pipeline` indexes a visible pipeline,
or equals 0 when every pipeline is hidden. -/
def selValid (b : BoardView) : Prop :=
  (∃ pv, b.pipelines[b.selected_pipeline]? = some pv ∧ pv.hidden = false)
  ∨ ((∀ pv ∈ b.pipelines, pv.hidden = true) ∧ b.selected_pipeline = 0)

/-- Inductive invariant carried through every board operation. -/
def BoardInv (b : BoardView) : Prop :=
  b.pipelines ≠ [] ∧ b.selected_pipeline < b.pipelines.length ∧ selValid b

theorem selectNextLoop_ne_none (ps : List PipelineView) (maxIdx : Nat)
    (hlt : maxIdx < ps.length) : ∀ sp, selectNextLoop ps maxIdx sp ≠ none := by
  intro sp
  induction sp using selectNextLoop.induct ps maxIdx with
  | case1 x hget =>
    have hx : (x + 1) ⊓ maxIdx < ps.length := by omega
    simp [List.getElem?_eq_getElem hx] at hget
  | case2 x pv hget hhid hmax =>
    rw [hmax] at hget
    simp [selectNextLoop, hmax, hget, hhid]
  | case3 x pv hget hhid hmax ih =>
    rw [selectNextLoop]
    simpa [hget, hhid, hmax] using ih
  | case4 x pv hget hhid =>
    simp [selectNextLoop, hget, hhid]

theorem selectNextLoop_some_visible (ps : List PipelineView) (maxIdx : Nat) :
    ∀ sp k, selectNextLoop ps maxIdx sp = some (some k) →
      k ≤ maxIdx ∧ ∃ pv, ps[k]? = some pv ∧ pv.hidden = false := by
  intro sp
  induction sp using selectNextLoop.induct ps maxIdx with
  | case1 x hget =>
    intro k hk
    rw [selectNextLoop, hget] at hk
    exact absurd hk (by simp)
  | case2 x pv hget hhid hmax =>
    intro k hk
    rw [selectNextLoop, hget] at hk
    simp [hhid, hmax] at hk
  | case3 x pv hget hhid hmax ih =>
    intro k hk
    rw [selectNextLoop, hget] at hk
    simp only [hhid, if_true, hmax, dif_neg, not_false_iff] at hk
    exact ih k (by simpa [hmax] using hk)
  | case4 x pv hget hhid =>
    intro k hk
    rw [selectNextLoop, hget] at hk
    simp only [hhid, Bool.false_eq_true, if_false, Option.some.injEq] at hk
    exact ⟨by omega, pv, hk ▸ hget, by simpa using hhid⟩

theorem selectNextLoop_none_hidden (ps : List PipelineView) (maxIdx : Nat) :
    ∀ sp, selectNextLoop ps maxIdx sp = some none →
      ∀ j, sp < j → j ≤ maxIdx → ∀ pv, ps[j]? = some pv → pv.hidden = true := by
  intro sp
  induction sp using selectNextLoop.induct ps maxIdx with
  | case1 x hget =>
    intro hk
    rw [selectNextLoop, hget] at hk
    exact absurd hk (by simp)
  | case2 x pv hget hhid hmax =>
    intro _ j hxj hjmax pv' hget'
    have hj : j = (x + 1) ⊓ maxIdx := by omega
    rw [hj, hget] at hget'
    cases hget'
    exact hhid
  | case3 x pv hget hhid hmax ih =>
    intro hk j hxj hjmax pv' hget'
    rw [selectNextLoop, hget] at hk
    simp only [hhid, if_true, hmax, dif_neg, not_false_iff] at hk
    have hlt : x + 1 < maxIdx := by omega
    by_cases hj : j = x + 1
    · have : (x + 1) ⊓ maxIdx = j := by omega
      rw [this, hget'] at hget
      cases hget
      exact hhid
    · exact ih hk j (by omega) hjmax pv' hget'
  | case4 x pv hget hhid =>
    intro hk
    rw [selectNextLoop, hget] at hk
    simp [hhid] at hk

theorem selectPrevLoop_ne_none (ps : List PipelineView) (h0 : 0 < ps.length) :
    ∀ sp, sp ≤ ps.length → selectPrevLoop ps sp ≠ none := by
  intro sp
  induction sp using selectPrevLoop.induct ps with
  | case1 x hget =>
    intro hle
    have hx : x - 1 < ps.length := by omega
    simp [List.getElem?_eq_getElem hx] at hget
  | case2 x pv hget hhid hz =>
    intro _
    rw [hz] at hget
    simp [selectPrevLoop, hz, hget, hhid]
  | case3 x pv hget hhid hz ih =>
    intro hle
    rw [selectPrevLoop]
    simpa [hget, hhid, hz] using ih (by omega)
  | case4 x pv hget hhid =>
    intro _
    simp [selectPrevLoop, hget, hhid]

theorem selectPrevLoop_some_visible (ps : List PipelineView) :
    ∀ sp k, selectPrevLoop ps sp = some (some k) →
      ∃ pv, ps[k]? = some pv ∧ pv.hidden = false := by
  intro sp
  induction sp using selectPrevLoop.induct ps with
  | case1 x hget =>
    intro k hk
    rw [selectPrevLoop, hget] at hk
    exact absurd hk (by simp)
  | case2 x pv hget hhid hz =>
    intro k hk
    rw [selectPrevLoop, hget] at hk
    simp [hhid, hz] at hk
  | case3 x pv hget hhid hz ih =>
    intro k hk
    rw [selectPrevLoop, hget] at hk
    simp only [hhid, if_true, hz, dif_neg, not_false_iff] at hk
    exact ih k hk
  | case4 x pv hget hhid =>
    intro k hk
    rw [selectPrevLoop, hget] at hk
    simp only [hhid, Bool.false_eq_true, if_false, Option.some.injEq] at hk
    exact ⟨pv, hk ▸ hget, by simpa using hhid⟩

theorem selectPrevLoop_none_hidden (ps : List PipelineView) :
    ∀ sp, selectPrevLoop ps sp = some none →
      ∀ j, j ≤ sp - 1 → ∀ pv, ps[j]? = some pv → pv.hidden = true := by
  intro sp
  induction sp using selectPrevLoop.induct ps with
  | case1 x hget =>
    intro hk
    rw [selectPrevLoop, hget] at hk
    exact absurd hk (by simp)
  | case2 x pv hget hhid hz =>
    intro _ j hj pv' hget'
    have : j = x - 1 := by omega
    rw [this, hget] at hget'
    cases hget'
    exact hhid
  | case3 x pv hget hhid hz ih =>
    intro hk j hj pv' hget'
    rw [selectPrevLoop, hget] at hk
    simp only [hhid, if_true, hz, dif_neg, not_false_iff] at hk
    by_cases hje : j = x - 1
    · rw [hje, hget] at hget'
      exact (Option.some.inj hget') ▸ hhid
    · exact ih hk j (by omega) pv' hget'
  | case4 x pv hget hhid =>
    intro hk
    rw [selectPrevLoop, hget] at hk
    simp [hhid] at hk

theorem getElem?_lt {ps : List PipelineView} {i : Nat} {pv : PipelineView}
    (h : ps[i]? = some pv) : i < ps.length :=
  (List.getElem?_eq_some.mp h).1

theorem select_next_pipeline_preserves (b : BoardView) (hb : BoardInv b) :
    ∃ b', b.select_next_pipeline = some b' ∧ b'.pipelines = b.pipelines ∧ BoardInv b' := by
  obtain ⟨hne, hsel, hval⟩ := hb
  have hlen : 0 < b.pipelines.length := List.length_pos.mpr hne
  have hmax : b.pipelines.length - 1 < b.pipelines.length := by omega
  cases hres : selectNextLoop b.pipelines (b.pipelines.length - 1) b.selected_pipeline with
  | none => exact absurd hres (selectNextLoop_ne_none _ _ hmax _)
  | some r =>
    cases r with
    | none =>
      refine ⟨b, ?_, rfl, hne, hsel, hval⟩
      rw [BoardView.select_next_pipeline, hres]
    | some k =>
      obtain ⟨hk, pv, hget, hvis⟩ := selectNextLoop_some_visible _ _ _ _ hres
      refine ⟨{ b with selected_pipeline := k }, ?_, rfl, hne, getElem?_lt hget,
        Or.inl ⟨pv, hget, hvis⟩⟩
      rw [BoardView.select_next_pipeline, hres]

theorem select_previous_pipeline_preserves (b : BoardView) (hb : BoardInv b) :
    ∃ b', b.select_previous_pipeline = some b' ∧ b'.pipelines = b.pipelines ∧ BoardInv b' := by
  obtain ⟨hne, hsel, hval⟩ := hb
  have hlen : 0 < b.pipelines.length := List.length_pos.mpr hne
  cases hres : selectPrevLoop b.pipelines b.selected_pipeline with
  | none => exact absurd hres (selectPrevLoop_ne_none _ hlen _ (Nat.le_of_lt hsel))
  | some r =>
    cases r with
    | none =>
      refine ⟨b, ?_, rfl, hne, hsel, hval⟩
      rw [BoardView.select_previous_pipeline, hres]
    | some k =>
      obtain ⟨pv, hget, hvis⟩ := selectPrevLoop_some_visible _ _ _ hres
      refine ⟨{ b with selected_pipeline := k }, ?_, rfl, hne, getElem?_lt hget,
        Or.inl ⟨pv, hget, hvis⟩⟩
      rw [BoardView.select_previous_pipeline, hres]

theorem show_all_pipelines_preserves (b : BoardView) (hb : BoardInv b) :
    BoardInv b.show_all_pipelines := by
  obtain ⟨hne, hsel, _⟩ := hb
  refine ⟨by simpa [BoardView.show_all_pipelines] using hne,
    by simpa [BoardView.show_all_pipelines] using hsel, Or.inl ?_⟩
  obtain ⟨pv, hget⟩ : ∃ pv : PipelineView, b.pipelines[b.selected_pipeline]? = some pv :=
    ⟨_, List.getElem?_eq_getElem hsel⟩
  exact ⟨{ pv with hidden := false },
    by simp [BoardView.show_all_pipelines, List.getElem?_map, hget], rfl⟩

theorem reselectAfterHide_preserves (b1 : BoardView) (hne : b1.pipelines ≠ [])
    (hsel : b1.selected_pipeline < b1.pipelines.length) :
    ∃ b', b1.reselectAfterHide = some b' ∧ BoardInv b' := by
  have hlen : 0 < b1.pipelines.length := List.length_pos.mpr hne
  obtain ⟨sel1, hget1⟩ : ∃ x : PipelineView, b1.pipelines[b1.selected_pipeline]? = some x :=
    ⟨_, List.getElem?_eq_getElem hsel⟩
  rw [BoardView.reselectAfterHide, hget1]
  dsimp only
  by_cases h1 : sel1.hidden = true
  case neg =>
    rw [if_neg h1]
    dsimp only
    rw [hget1]
    dsimp only
    rw [if_neg h1]
    dsimp only
    rw [hget1]
    dsimp only
    rw [if_neg h1]
    exact ⟨b1, rfl, hne, hsel, Or.inl ⟨sel1, hget1, by simpa using h1⟩⟩
  case pos =>
    rw [if_pos h1]
    cases hprev : selectPrevLoop b1.pipelines b1.selected_pipeline with
    | none => exact absurd hprev (selectPrevLoop_ne_none _ hlen _ (Nat.le_of_lt hsel))
    | some r =>
      cases r with
      | some k =>
        have hprev_eq : b1.select_previous_pipeline = some { b1 with selected_pipeline := k } := by
          rw [BoardView.select_previous_pipeline, hprev]
        rw [hprev_eq]
        dsimp only
        obtain ⟨pvk, hgetk, hvisk⟩ := selectPrevLoop_some_visible _ _ _ hprev
        have hvisk' : ¬pvk.hidden = true := by simp [hvisk]
        rw [hgetk]
        dsimp only
        rw [if_neg hvisk']
        dsimp only
        rw [hgetk]
        dsimp only
        rw [if_neg hvisk']
        exact ⟨{ b1 with selected_pipeline := k }, rfl, hne, getElem?_lt hgetk,
          Or.inl ⟨pvk, hgetk, hvisk⟩⟩
      | none =>
        have hprev_eq : b1.select_previous_pipeline = some b1 := by
          rw [BoardView.select_previous_pipeline, hprev]
        rw [hprev_eq]
        dsimp only
        rw [hget1]
        dsimp only
        rw [if_pos h1]
        have hmax : b1.pipelines.length - 1 < b1.pipelines.length := by omega
        cases hnext : selectNextLoop b1.pipelines (b1.pipelines.length - 1)
            b1.selected_pipeline with
        | none => exact absurd hnext (selectNextLoop_ne_none _ _ hmax _)
        | some r2 =>
          cases r2 with
          | some k =>
            have hnext_eq : b1.select_next_pipeline = some { b1 with selected_pipeline := k } := by
              rw [BoardView.select_next_pipeline, hnext]
            rw [hnext_eq]
            dsimp only
            obtain ⟨hk, pvk, hgetk, hvisk⟩ := selectNextLoop_some_visible _ _ _ _ hnext
            have hvisk' : ¬pvk.hidden = true := by simp [hvisk]
            rw [hgetk]
            dsimp only
            rw [if_neg hvisk']
            exact ⟨{ b1 with selected_pipeline := k }, rfl, hne, getElem?_lt hgetk,
              Or.inl ⟨pvk, hgetk, hvisk⟩⟩
          | none =>
            have hnext_eq : b1.select_next_pipeline = some b1 := by
              rw [BoardView.select_next_pipeline, hnext]
            rw [hnext_eq]
            dsimp only
            rw [hget1]
            dsimp only
            rw [if_pos h1]
            refine ⟨{ b1 with selected_pipeline := 0 }, rfl, hne, hlen, Or.inr ⟨?_, rfl⟩⟩
            show ∀ pv ∈ b1.pipelines, pv.hidden = true
            intro pv hmem
            obtain ⟨j, hjlt, hje⟩ := List.getElem_of_mem hmem
            have hj : b1.pipelines[j]? = some pv := by
              rw [List.getElem?_eq_getElem hjlt, hje]
            rcases lt_trichotomy j b1.selected_pipeline with hlt | heq | hgt
            · exact selectPrevLoop_none_hidden _ _ hprev j (by omega) pv hj
            · rw [heq, hget1] at hj
              exact (Option.some.inj hj) ▸ h1
            · exact selectNextLoop_none_hidden _ _ _ hnext j hgt (by omega) pv hj

theorem hide_pipeline_preserves (b : BoardView) (hb : BoardInv b) (i : Nat) :
    ∃ b', b.hide_pipeline i = some b' ∧ BoardInv b' := by
  obtain ⟨hne, hsel, hval⟩ := hb
  rw [BoardView.hide_pipeline]
  cases hgi : b.pipelines[i]? with
  | none => exact ⟨b, rfl, hne, hsel, hval⟩
  | some pv =>
    have hlen : 0 < b.pipelines.length := List.length_pos.mpr hne
    apply reselectAfterHide_preserves
    · exact List.ne_nil_of_length_pos (by simpa [List.length_set] using hlen)
    · simpa [List.length_set] using hsel

/-! ### Operation sequences on the board view -/

/-- The board operations quantified over by the spec's selection invariant. -/
inductive BoardOp where
  | hide (i : Nat)
  | showAll
  | next
  | prev
deriving DecidableEq, Repr

def applyBoardOp (b : BoardView) (op : BoardOp) : Option BoardView :=
  match op with
  | .hide i => b.hide_pipeline i
  | .showAll => some b.show_all_pipelines
  | .next => b.select_next_pipeline
  | .prev => b.select_previous_pipeline

def applyBoardOps (b : BoardView) (ops : List BoardOp) : Option BoardView :=
  match ops with
  | [] => some b
  | op :: rest =>
    match applyBoardOp b op with
    | none => none
    | some b' => applyBoardOps b' rest

theorem applyBoardOp_preserves (b : BoardView) (hb : BoardInv b) (op : BoardOp) :
    ∃ b', applyBoardOp b op = some b' ∧ BoardInv b' := by
  cases op with
  | hide i => exact hide_pipeline_preserves b hb i
  | showAll => exact ⟨b.show_all_pipelines, rfl, show_all_pipelines_preserves b hb⟩
  | next =>
    obtain ⟨b', h1, _, h2⟩ := select_next_pipeline_preserves b hb
    exact ⟨b', h1, h2⟩
  | prev =>
    obtain ⟨b', h1, _, h2⟩ := select_previous_pipeline_preserves b hb
    exact ⟨b', h1, h2⟩

theorem applyBoardOps_preserves (ops : List BoardOp) :
    ∀ b, BoardInv b → ∃ b', applyBoardOps b ops = some b' ∧ BoardInv b' := by
  induction ops with
  | nil => exact fun b hb => ⟨b, rfl, hb⟩
  | cons op rest ih =>
    intro b hb
    obtain ⟨b1, hstep, hinv1⟩ := applyBoardOp_preserves b hb op
    obtain ⟨b', hrest, hinv⟩ := ih b1 hinv1
    refine ⟨b', ?_, hinv⟩
    rw [applyBoardOps, hstep]
    exact hrest

theorem ofBoard_inv (board : Board) (hne : board.pipelines ≠ []) :
    BoardInv (BoardView.ofBoard board) := by
  refine ⟨by simpa [BoardView.ofBoard] using hne, ?_, Or.inl ?_⟩
  · simpa [BoardView.ofBoard, List.length_pos] using hne
  · cases board with
    | mk pipelines =>
      cases pipelines with
      | nil => exact absurd rfl hne
      | cons p rest =>
        exact ⟨PipelineView.ofPipeline p, by simp [BoardView.ofBoard], rfl⟩

/-- **C1**: starting from a freshly loaded board with at least one pipeline
(`selected_pipeline = 0`, nothing hidden), any sequence of `hide_pipeline`,
`show_all_pipelines`, `select_next_pipeline` and `select_previous_pipeline`
operations succeeds and leaves `selected_pipeline` on a pipeline whose hidden
flag is false, or at 0 when every pipeline is hidden. -/
theorem c1_selection_invariant (board : Board) (hne : board.pipelines ≠ [])
    (ops : List BoardOp) :
    ∃ b', applyBoardOps (BoardView.ofBoard board) ops = some b' ∧
      ((∃ pv, b'.pipelines[b'.selected_pipeline]? = some pv ∧ pv.hidden = false) ∨
       ((∀ pv ∈ b'.pipelines, pv.hidden = true) ∧ b'.selected_pipeline = 0)) := by
  obtain ⟨b', hrun, _, _, hval⟩ := applyBoardOps_preserves ops _ (ofBoard_inv board hne)
  exact ⟨b', hrun, hval⟩

def c1Board : Board :=
  { pipelines :=
      [{ id := "a", name := "A",
         issues := [{ number := 1, is_epic := false }, { number := 2, is_epic := false }] },
       { id := "b", name := "B", issues := [] }] }

def c1Ops : List BoardOp :=
  [BoardOp.prev, BoardOp.hide 0, BoardOp.next, BoardOp.showAll, BoardOp.hide 1, BoardOp.hide 0]

theorem c1_selection_invariant_witness :
    c1Board.pipelines ≠ [] ∧
    (∃ b', applyBoardOps (BoardView.ofBoard c1Board) c1Ops = some b' ∧
      ((∃ pv, b'.pipelines[b'.selected_pipeline]? = some pv ∧ pv.hidden = false) ∨
       ((∀ pv ∈ b'.pipelines, pv.hidden = true) ∧ b'.selected_pipeline = 0))) :=
  ⟨by decide, c1_selection_invariant c1Board (by decide) c1Ops⟩

/-- **C10**: with a non-empty pipelines vector and an in-range selection, both
navigation operations stay inside the vector (the panic branch of the embedding
is unreachable and the new selection is in range); on the default (empty)
`BoardView` that exists before any board loads, both operations reach the
indexing panic branch, so non-emptiness is a necessary precondition. -/
theorem c10_navigation_index_safety :
    (∀ b : BoardView, b.pipelines ≠ [] → b.selected_pipeline < b.pipelines.length →
      (∃ b', b.select_next_pipeline = some b' ∧ b'.pipelines = b.pipelines ∧
        b'.selected_pipeline < b'.pipelines.length) ∧
      (∃ b', b.select_previous_pipeline = some b' ∧ b'.pipelines = b.pipelines ∧
        b'.selected_pipeline < b'.pipelines.length)) ∧
    BoardView.default.select_next_pipeline = none ∧
    BoardView.default.select_previous_pipeline = none := by
  refine ⟨?_, ?_, ?_⟩
  · intro b hne hsel
    have hlen : 0 < b.pipelines.length := List.length_pos.mpr hne
    constructor
    · have hmax : b.pipelines.length - 1 < b.pipelines.length := by omega
      cases hres : selectNextLoop b.pipelines (b.pipelines.length - 1) b.selected_pipeline with
      | none => exact absurd hres (selectNextLoop_ne_none _ _ hmax _)
      | some r =>
        cases r with
        | none => exact ⟨b, by rw [BoardView.select_next_pipeline, hres], rfl, hsel⟩
        | some k =>
          obtain ⟨hk, pv, hget, _⟩ := selectNextLoop_some_visible _ _ _ _ hres
          exact ⟨{ b with selected_pipeline := k },
            by rw [BoardView.select_next_pipeline, hres], rfl, getElem?_lt hget⟩
    · cases hres : selectPrevLoop b.pipelines b.selected_pipeline with
      | none => exact absurd hres (selectPrevLoop_ne_none _ hlen _ (Nat.le_of_lt hsel))
      | some r =>
        cases r with
        | none => exact ⟨b, by rw [BoardView.select_previous_pipeline, hres], rfl, hsel⟩
        | some k =>
          obtain ⟨pv, hget, _⟩ := selectPrevLoop_some_visible _ _ _ hres
          exact ⟨{ b with selected_pipeline := k },
            by rw [BoardView.select_previous_pipeline, hres], rfl, getElem?_lt hget⟩
  · simp [BoardView.select_next_pipeline, BoardView.default, selectNextLoop]
  · simp [BoardView.select_previous_pipeline, BoardView.default, selectPrevLoop]

def c10Board : BoardView :=
  { pipelines := [{ pipeline := { id := "p", name := "P", issues := [] },
                    hidden := true, selected_issue := 0 }],
    selected_pipeline := 0 }

theorem c10_navigation_index_safety_witness :
    c10Board.pipelines ≠ [] ∧ c10Board.selected_pipeline < c10Board.pipelines.length ∧
    ((∃ b', c10Board.select_next_pipeline = some b' ∧ b'.pipelines = c10Board.pipelines ∧
        b'.selected_pipeline < b'.pipelines.length) ∧
     (∃ b', c10Board.select_previous_pipeline = some b' ∧ b'.pipelines = c10Board.pipelines ∧
        b'.selected_pipeline < b'.pipelines.length)) :=
  ⟨by decide, by decide, c10_navigation_index_safety.1 c10Board (by decide) (by decide)⟩

/-! ### The reducer (`App` in src/app/mod.rs) -/

/-- `Message` from src/app/mod.rs.  `anyhow::Result<T>` is embedded as
`Except String T` (errors carry their display string). -/
inductive Message where
  | NextPipeline
  | PreviousPipeline
  | SelectIssue (issue_index : Nat)
  | LoadedIssue (number : IssueNumber) (result : Except String Issue)
  | EditIssue (number : IssueNumber) (result : Except String Issue)
  | LoadedBoard (result : Except String Board)
  | HidePipeline (pipeline_index : Nat)
  | ShowAllPipelines

/-- A fetch spawned on `async_runtime` during `update` (the
`github_client.get_issue` task of the `LoadedBoard` arm). -/
inductive Effect where
  | fetchIssue (number : IssueNumber)
deriving DecidableEq, Repr

/-- The reducer-owned state of `App`: `board`, `issues` (the `im::HashMap`,
embedded as a lookup function) and `num_pending_tasks` (a Rust `usize`,
embedded as `Int` so that non-negativity is a provable property). -/
structure AppState where
  board : BoardView
  issues : IssueNumber → Option (FutureValue Issue)
  num_pending_tasks : Int

/-- `HashMap::insert` on the issue store. -/
def insertIssue (issues : IssueNumber → Option (FutureValue Issue)) (n : IssueNumber)
    (value : FutureValue Issue) : IssueNumber → Option (FutureValue Issue) :=
  fun m => if m = n then some value else issues m

/-- The `match result { Ok -> Ready, Err -> Error }` conversion shared by the
`LoadedIssue` and `EditIssue` arms of `App::update`. -/
def futureOfResult (result : Except String Issue) : FutureValue Issue :=
  match result with
  | .ok issue => FutureValue.Ready issue
  | .error e => FutureValue.Error e

/-- The fetch fan-out of the `LoadedBoard` arm: for each pipeline, for each of
its first 7 issues, increment `num_pending_tasks` and spawn one issue fetch. -/
def loadedBoardFanOut (bv : BoardView) (start : Int) : Int × List Effect :=
  bv.pipelines.foldl
    (fun acc pv =>
      (pv.pipeline.issues.take 7).foldl
        (fun acc2 issue_ref => (acc2.1 + 1, acc2.2 ++ [Effect.fetchIssue issue_ref.number]))
        acc)
    (start, [])

/-- `App::update` (src/app/mod.rs lines 213-281).  Returns the new state and
the fetches dispatched while processing the message; `none` is the panic branch
(board navigation indexing, or the `new_board.unwrap()` of the `LoadedBoard`
arm when the result is an error). -/
def App.update (s : AppState) (message : Message) : Option (AppState × List Effect) :=
  match message with
  | .NextPipeline => (s.board.select_next_pipeline).map (fun b => ({ s with board := b }, []))
  | .PreviousPipeline =>
    (s.board.select_previous_pipeline).map (fun b => ({ s with board := b }, []))
  | .SelectIssue issue_index =>
    match s.board.pipelines[s.board.selected_pipeline]? with
    | none => some (s, [])
    | some pv =>
      some ({ s with board := { s.board with
        pipelines := s.board.pipelines.set s.board.selected_pipeline
          (pv.select_issue issue_index) } }, [])
  | .LoadedBoard result =>
    match result with
    | .error _ => none
    | .ok board =>
      let bv := BoardView.ofBoard board
      let fanOut := loadedBoardFanOut bv (s.num_pending_tasks - 1)
      some ({ s with board := bv, num_pending_tasks := fanOut.1 }, fanOut.2)
  | .LoadedIssue number result =>
    some ({ s with
        issues := insertIssue s.issues number (futureOfResult result),
        num_pending_tasks := s.num_pending_tasks - 1 }, [])
  | .EditIssue number result =>
    some ({ s with issues := insertIssue s.issues number (futureOfResult result) }, [])
  | .HidePipeline pipeline_index =>
    (s.board.hide_pipeline pipeline_index).map (fun b => ({ s with board := b }, []))
  | .ShowAllPipelines => some ({ s with board := s.board.show_all_pipelines }, [])

/-- `App::create`: dispatches the initial board fetch, so the app starts with
an empty default board, an empty issue store and `num_pending_tasks = 1`. -/
def App.create : AppState :=
  { board := BoardView.default, issues := fun _ => none, num_pending_tasks := 1 }

/-- Draining a message sequence through the reducer one message at a time
(`none` as soon as any application panics). -/
def runMessages (s : AppState) (msgs : List Message) : Option AppState :=
  match msgs with
  | [] => some s
  | m :: rest =>
    match App.update s m with
    | none => none
    | some (s', _) => runMessages s' rest

/-! ### The external edit workflow (src/edit.rs and the Enter arm of
`App::input_binding`) -/

/-- The string handed to the external editor:
`format!("{}\n\n{}", issue.title, issue.body)`. -/
def editorInput (issue : Issue) : String :=
  issue.title ++ "\n\n" ++ issue.body

/-- How the Enter arm of `App::input_binding` turns the editor's output into
the edited issue: `issue.title = new_title` where `new_title` is the whole
edited text; no other field is touched. -/
def applyEditResult (issue : Issue) (new_title : String) : Issue :=
  { issue with title := new_title }

/-- The characters of `edited` before its first newline. -/
def firstLine (edited : String) : String :=
  String.mk (edited.data.takeWhile (fun c => c ≠ '\n'))

/-- The characters of `edited` after its first newline. -/
def restLines (edited : String) : String :=
  String.mk ((edited.data.dropWhile (fun c => c ≠ '\n')).drop 1)

/-- Follows the spec's words (refinement side, not the source): the first line
of the edited text becomes the title and the remainder becomes the body. -/
def specFirstLineSplit (issue : Issue) (edited : String) : Issue :=
  { issue with title := firstLine edited, body := restLines edited }

/-! ### C2, C9, C8: individual reducer arms -/

/-- **C2**: a failed board load is not recovered: from every prior state, the
`LoadedBoard` arm with an error result reaches the `new_board.unwrap()` panic
branch of the embedding, rather than degrading to an empty board or storing a
visible error. -/
theorem c2_board_load_failure_is_unrecovered (s : AppState) (e : String) :
    App.update s (Message.LoadedBoard (Except.error e)) = none := rfl

/-- **C9**: `select_issue i` on an `N`-issue pipeline sets `selected_issue` to
`min i (N-1)` for `N > 0` and to `0` for `N = 0`, and changes no other field of
the `PipelineView`. -/
theorem c9_select_issue_clamps (pv : PipelineView) (i : Nat) :
    (pv.select_issue i).selected_issue =
      (if pv.pipeline.issues.length = 0 then 0 else min i (pv.pipeline.issues.length - 1)) ∧
    (pv.select_issue i).pipeline = pv.pipeline ∧
    (pv.select_issue i).hidden = pv.hidden := by
  refine ⟨?_, rfl, rfl⟩
  by_cases h : pv.pipeline.issues.length = 0 <;> simp [PipelineView.select_issue, h]

/-- **C8**: every `LoadedIssue (n, result)` completion overwrites the issue
store at key `n` with `Ready` on success and `Error` on failure, whatever the
prior contents; in particular `Ok x` then `Err e` at the same key leaves
`Error e` (last write wins). -/
theorem c8_issue_store_last_write_wins (s : AppState) (n : IssueNumber) (x : Issue)
    (e : String) (r : Except String Issue) :
    (∃ s1, App.update s (Message.LoadedIssue n r) = some (s1, []) ∧
      s1.issues n = some (futureOfResult r)) ∧
    futureOfResult (Except.ok x) = FutureValue.Ready x ∧
    futureOfResult (Except.error e : Except String Issue) = FutureValue.Error e ∧
    (∃ s1 s2, App.update s (Message.LoadedIssue n (Except.ok x)) = some (s1, []) ∧
      App.update s1 (Message.LoadedIssue n (Except.error e)) = some (s2, []) ∧
      s1.issues n = some (FutureValue.Ready x) ∧
      s2.issues n = some (FutureValue.Error e)) := by
  refine ⟨⟨_, rfl, ?_⟩, rfl, rfl, _, _, rfl, rfl, ?_, ?_⟩ <;>
    simp [App.update, insertIssue, futureOfResult]

/-! ### C3: the external edit workflow -/

def c3Issue : Issue :=
  { number := 1, title := "Old title", body := "Old body", state := IssueState.isOpen,
    labels := [], pull_request := none }

def c3Edited : String := "New title\nNew body"

/-- **C3 counterexample**: when the editor returns `"New title\nNew body"` for
an issue whose body is `"Old body"`, the Enter arm stores the whole edited text
as the title and keeps the old body — not the claim's first-line title with the
remainder as body. -/
theorem c3_counterexample :
    (∃ s', App.update App.create
        (Message.EditIssue 1 (Except.ok (applyEditResult c3Issue c3Edited))) = some (s', []) ∧
      s'.issues 1 = some (FutureValue.Ready (applyEditResult c3Issue c3Edited))) ∧
    firstLine c3Edited = "New title" ∧
    restLines c3Edited = "New body" ∧
    (applyEditResult c3Issue c3Edited).title = "New title\nNew body" ∧
    (applyEditResult c3Issue c3Edited).title ≠ firstLine c3Edited ∧
    (applyEditResult c3Issue c3Edited).body = "Old body" ∧
    (applyEditResult c3Issue c3Edited).body ≠ restLines c3Edited ∧
    applyEditResult c3Issue c3Edited ≠ specFirstLineSplit c3Issue c3Edited := by
  refine ⟨⟨_, rfl, ?_⟩, by decide, by decide, by decide, by decide, by decide, by decide,
    by decide⟩
  simp [App.update, insertIssue, futureOfResult]

/-- **C3 amended**: the external editor is invoked with `"{title}\n\n{body}"`;
when it returns edited text `e` successfully, the issue stored at that issue's
key via `EditIssue` has its title equal to the *entire* edited text `e`, with
every other field — including the body — unchanged, and the pending-task
counter untouched. -/
theorem c3_edit_stores_whole_text_as_title (issue : Issue) (e : String) (s : AppState) :
    editorInput issue = issue.title ++ "\n\n" ++ issue.body ∧
    (applyEditResult issue e).title = e ∧
    (applyEditResult issue e).body = issue.body ∧
    (applyEditResult issue e).number = issue.number ∧
    (applyEditResult issue e).state = issue.state ∧
    (applyEditResult issue e).labels = issue.labels ∧
    (applyEditResult issue e).pull_request = issue.pull_request ∧
    (∃ s', App.update s (Message.EditIssue issue.number (Except.ok (applyEditResult issue e)))
        = some (s', []) ∧
      s'.issues issue.number = some (FutureValue.Ready (applyEditResult issue e)) ∧
      s'.num_pending_tasks = s.num_pending_tasks ∧
      s'.board = s.board) := by
  refine ⟨rfl, rfl, rfl, rfl, rfl, rfl, rfl, _, rfl, ?_, rfl, rfl⟩
  simp [App.update, insertIssue, futureOfResult]

/-! ### C6: the board-load fan-out -/

/-- The fetches the `LoadedBoard` arm dispatches, in pipeline and issue order:
one per issue among the first 7 issues of every pipeline. -/
def fanOutEffects (bv : BoardView) : List Effect :=
  (bv.pipelines.map (fun pv => (pv.pipeline.issues.take 7).map
    (fun issue_ref => Effect.fetchIssue issue_ref.number))).flatten

/-- The number of fetches a successful board load dispatches:
`min 7 (number of issues)` summed over the pipelines. -/
def issueFetchCount (board : Board) : Nat :=
  (board.pipelines.map (fun p => min 7 p.issues.length)).sum

theorem fanOut_inner (xs : List IssueRef) :
    ∀ (c : Int) (es : List Effect),
      xs.foldl
        (fun acc2 issue_ref => (acc2.1 + 1, acc2.2 ++ [Effect.fetchIssue issue_ref.number]))
        (c, es)
      = (c + (xs.length : Int),
         es ++ xs.map (fun issue_ref => Effect.fetchIssue issue_ref.number)) := by
  induction xs with
  | nil => intro c es; simp
  | cons a t ih =>
    intro c es
    rw [List.foldl_cons]
    rw [ih]
    simp only [Prod.mk.injEq, List.map_cons, List.length_cons]
    constructor
    · push_cast
      ring
    · simp

theorem fanOut_outer (pls : List PipelineView) :
    ∀ (c : Int) (es : List Effect),
      pls.foldl
        (fun acc pv => (pv.pipeline.issues.take 7).foldl
          (fun acc2 issue_ref => (acc2.1 + 1, acc2.2 ++ [Effect.fetchIssue issue_ref.number]))
          acc)
        (c, es)
      = (c + ((((pls.map (fun pv => min 7 pv.pipeline.issues.length)).sum : Nat)) : Int),
         es ++ (pls.map (fun pv => (pv.pipeline.issues.take 7).map
           (fun issue_ref => Effect.fetchIssue issue_ref.number))).flatten) := by
  induction pls with
  | nil => intro c es; simp
  | cons p t ih =>
    intro c es
    rw [List.foldl_cons, fanOut_inner, ih]
    simp only [Prod.mk.injEq, List.map_cons, List.sum_cons, List.flatten_cons]
    constructor
    · push_cast [List.length_take]
      ring
    · simp

theorem loadedBoardFanOut_eq (bv : BoardView) (start : Int) :
    loadedBoardFanOut bv start =
      (start + ((((bv.pipelines.map (fun pv => min 7 pv.pipeline.issues.length)).sum : Nat)) : Int),
       fanOutEffects bv) := by
  rw [loadedBoardFanOut, fanOut_outer]
  rfl

theorem ofBoard_fetch_sum (board : Board) :
    ((BoardView.ofBoard board).pipelines.map (fun pv => min 7 pv.pipeline.issues.length)).sum
      = issueFetchCount board := by
  rw [issueFetchCount]
  show ((board.pipelines.map PipelineView.ofPipeline).map
    (fun pv => min 7 pv.pipeline.issues.length)).sum = _
  rw [List.map_map]
  rfl

/-- **C6**: on a successful board load, exactly one issue fetch is dispatched
for each of the first `min 7 n` issues of every pipeline, in pipeline and issue
order, with `num_pending_tasks` incremented by exactly one per dispatched fetch
(after the single decrement for the completed board fetch); no fetch is
dispatched beyond the first 7 issues of any pipeline. -/
theorem c6_board_load_fan_out (s : AppState) (board : Board) :
    App.update s (Message.LoadedBoard (Except.ok board)) =
      some ({ s with
          board := BoardView.ofBoard board,
          num_pending_tasks := s.num_pending_tasks - 1 + (issueFetchCount board : Int) },
        fanOutEffects (BoardView.ofBoard board)) ∧
    fanOutEffects (BoardView.ofBoard board) =
      (board.pipelines.map (fun p => (p.issues.take 7).map
        (fun issue_ref => Effect.fetchIssue issue_ref.number))).flatten ∧
    (fanOutEffects (BoardView.ofBoard board)).length = issueFetchCount board := by
  refine ⟨?_, ?_, ?_⟩
  · simp only [App.update]
    rw [loadedBoardFanOut_eq]
    simp only [ofBoard_fetch_sum]
  · rw [fanOutEffects]
    show ((board.pipelines.map PipelineView.ofPipeline).map (fun pv =>
      (pv.pipeline.issues.take 7).map
        (fun issue_ref => Effect.fetchIssue issue_ref.number))).flatten = _
    rw [List.map_map]
    rfl
  · rw [fanOutEffects, List.length_flatten, List.map_map, ← ofBoard_fetch_sum board]
    have hfun : (List.length ∘ fun pv : PipelineView => (pv.pipeline.issues.take 7).map
        (fun issue_ref => Effect.fetchIssue issue_ref.number))
        = fun pv : PipelineView => min 7 pv.pipeline.issues.length := by
      funext pv
      simp [List.length_take]
    rw [hfun]

/-! ### C7: the pending-task counter -/

/-- Fetches dispatched while processing one message. -/
def msgDispatchCount (m : Message) : Nat :=
  match m with
  | .LoadedBoard (.ok board) => issueFetchCount board
  | _ => 0

def msgIsBoardCompletion (m : Message) : Bool :=
  match m with
  | .LoadedBoard _ => true
  | _ => false

def msgIsIssueCompletion (m : Message) : Bool :=
  match m with
  | .LoadedIssue _ _ => true
  | _ => false

def dispatchedCount (msgs : List Message) : Nat :=
  (msgs.map msgDispatchCount).sum

def boardCompletedCount (msgs : List Message) : Nat :=
  msgs.countP msgIsBoardCompletion

def issueCompletedCount (msgs : List Message) : Nat :=
  msgs.countP msgIsIssueCompletion

/-- Every prefix completes at most one board fetch (exactly one was dispatched
at `create`) and at most as many issue fetches as board loads have dispatched
so far: each dispatched fetch is paired with at most one completion, delivered
after its dispatch. -/
def PairedDispatch (msgs : List Message) : Prop :=
  ∀ k, k < msgs.length + 1 →
    boardCompletedCount (msgs.take k) ≤ 1 ∧
    issueCompletedCount (msgs.take k) ≤ dispatchedCount (msgs.take k)

theorem update_counter (s : AppState) (m : Message) (s' : AppState) (effs : List Effect)
    (h : App.update s m = some (s', effs)) :
    s'.num_pending_tasks = s.num_pending_tasks + (msgDispatchCount m : Int)
      - (if msgIsBoardCompletion m then 1 else 0)
      - (if msgIsIssueCompletion m then 1 else 0) := by
  cases m with
  | NextPipeline =>
    simp only [App.update, Option.map_eq_some'] at h
    obtain ⟨b, -, hpair⟩ := h
    cases hpair
    simp [msgDispatchCount, msgIsBoardCompletion, msgIsIssueCompletion]
  | PreviousPipeline =>
    simp only [App.update, Option.map_eq_some'] at h
    obtain ⟨b, -, hpair⟩ := h
    cases hpair
    simp [msgDispatchCount, msgIsBoardCompletion, msgIsIssueCompletion]
  | HidePipeline i =>
    simp only [App.update, Option.map_eq_some'] at h
    obtain ⟨b, -, hpair⟩ := h
    cases hpair
    simp [msgDispatchCount, msgIsBoardCompletion, msgIsIssueCompletion]
  | ShowAllPipelines =>
    simp only [App.update] at h
    cases Option.some.inj h
    simp [msgDispatchCount, msgIsBoardCompletion, msgIsIssueCompletion]
  | SelectIssue i =>
    simp only [App.update] at h
    cases hg : s.board.pipelines[s.board.selected_pipeline]? with
    | none =>
      simp only [hg] at h
      cases Option.some.inj h
      simp [msgDispatchCount, msgIsBoardCompletion, msgIsIssueCompletion]
    | some pv =>
      simp only [hg] at h
      cases Option.some.inj h
      simp [msgDispatchCount, msgIsBoardCompletion, msgIsIssueCompletion]
  | LoadedBoard result =>
    cases result with
    | error e => exact absurd h (by simp [App.update])
    | ok board =>
      simp only [App.update] at h
      cases Option.some.inj h
      rw [loadedBoardFanOut_eq]
      simp [msgDispatchCount, msgIsBoardCompletion, msgIsIssueCompletion, ofBoard_fetch_sum]
      ring
  | LoadedIssue n r =>
    simp only [App.update] at h
    cases Option.some.inj h
    simp [msgDispatchCount, msgIsBoardCompletion, msgIsIssueCompletion]
  | EditIssue n r =>
    simp only [App.update] at h
    cases Option.some.inj h
    simp [msgDispatchCount, msgIsBoardCompletion, msgIsIssueCompletion]

theorem runMessages_counter (msgs : List Message) :
    ∀ s s', runMessages s msgs = some s' →
      s'.num_pending_tasks = s.num_pending_tasks + (dispatchedCount msgs : Int)
        - (boardCompletedCount msgs : Int) - (issueCompletedCount msgs : Int) := by
  induction msgs with
  | nil =>
    intro s s' h
    cases Option.some.inj h
    simp [dispatchedCount, boardCompletedCount, issueCompletedCount]
  | cons m rest ih =>
    intro s s' h
    rw [runMessages] at h
    cases hstep : App.update s m with
    | none =>
      rw [hstep] at h
      exact absurd h (by simp)
    | some p =>
      rw [hstep] at h
      have hcount := update_counter s m p.1 p.2 (by rw [hstep])
      have hrest := ih p.1 s' h
      rw [hrest, hcount]
      simp only [dispatchedCount, boardCompletedCount, issueCompletedCount, List.map_cons,
        List.sum_cons, List.countP_cons]
      by_cases hb : msgIsBoardCompletion m <;> by_cases hi : msgIsIssueCompletion m <;>
        simp [hb, hi] <;> omega

/-- **C7**: for any message sequence in which each dispatched fetch (the initial
board fetch dispatched by `create`, and the issue fetches dispatched by board
loads) is paired with at most one later completion, `num_pending_tasks` equals
`1 + dispatched - completions` after every successfully processed prefix and in
particular never goes negative: it is decremented exactly once per `LoadedBoard`
and once per `LoadedIssue`, while `EditIssue` leaves the counter untouched. -/
theorem c7_pending_tasks_never_negative (msgs : List Message) (hp : PairedDispatch msgs) :
    (∀ k s', runMessages App.create (msgs.take k) = some s' →
       s'.num_pending_tasks = 1 + (dispatchedCount (msgs.take k) : Int)
         - (boardCompletedCount (msgs.take k) : Int)
         - (issueCompletedCount (msgs.take k) : Int) ∧
       0 ≤ s'.num_pending_tasks) ∧
    (∀ s n r s' effs, App.update s (Message.EditIssue n r) = some (s', effs) →
       s'.num_pending_tasks = s.num_pending_tasks) := by
  constructor
  · intro k s' hrun
    have hcnt := runMessages_counter (msgs.take k) App.create s' hrun
    rw [show App.create.num_pending_tasks = 1 from rfl] at hcnt
    refine ⟨hcnt, ?_⟩
    have htake : msgs.take k = msgs.take (min k msgs.length) := by
      rcases Nat.le_total k msgs.length with hle | hle
      · rw [Nat.min_eq_left hle]
      · rw [Nat.min_eq_right hle, List.take_of_length_le hle, List.take_length]
    obtain ⟨hb, hi⟩ := hp (min k msgs.length) (by omega)
    rw [← htake] at hb hi
    omega
  · intro s n r s' effs h
    have hc := update_counter s (Message.EditIssue n r) s' effs h
    simpa [msgDispatchCount, msgIsBoardCompletion, msgIsIssueCompletion] using hc

def c7Issue : Issue :=
  { number := 1, title := "T", body := "B", state := IssueState.isOpen,
    labels := [], pull_request := none }

def c7Pipeline : Pipeline :=
  { id := "p", name := "P",
    issues := [{ number := 1, is_epic := false }, { number := 2, is_epic := false }] }

def c7Board : Board :=
  { pipelines := [c7Pipeline] }

def c7Msgs : List Message :=
  [Message.LoadedBoard (Except.ok c7Board),
   Message.LoadedIssue 1 (Except.ok c7Issue),
   Message.LoadedIssue 2 (Except.error "boom")]

theorem c7_pending_tasks_never_negative_witness :
    PairedDispatch c7Msgs ∧
    ((∀ k s', runMessages App.create (c7Msgs.take k) = some s' →
       s'.num_pending_tasks = 1 + (dispatchedCount (c7Msgs.take k) : Int)
         - (boardCompletedCount (c7Msgs.take k) : Int)
         - (issueCompletedCount (c7Msgs.take k) : Int) ∧
       0 ≤ s'.num_pending_tasks) ∧
    (∀ s n r s' effs, App.update s (Message.EditIssue n r) = some (s', effs) →
       s'.num_pending_tasks = s.num_pending_tasks)) :=
  ⟨by unfold PairedDispatch; decide,
   c7_pending_tasks_never_negative c7Msgs (by unfold PairedDispatch; decide)⟩

/-! ### The label flow layout (`IssueContent::view` in src/app/issue_card.rs) -/

/-- The cursor and row bookkeeping of the label flow loop.  `x`/`y` are the
`position` of the source; `wraps` counts executions of the wrap branch; `rows`
records, most recent row first, the chip widths placed on each row. -/
structure FlowState where
  x : Nat
  y : Nat
  wraps : Nat
  rows : List (List Nat)
deriving DecidableEq, Repr

/-- `Position::zero()` with one (still empty) current row. -/
def FlowState.init : FlowState :=
  { x := 0, y := 0, wraps := 0, rows := [[]] }

/-- Record a chip on the current (head) row. -/
def rowsAppend (rows : List (List Nat)) (w : Nat) : List (List Nat) :=
  match rows with
  | [] => [[w]]
  | r :: rest => (r ++ [w]) :: rest

/-- One iteration of the label flow loop (src/app/issue_card.rs lines 174-199)
for a chip of padded display width `w` on a canvas of width `W`: when the row
already holds content (`0 < x`), either wrap
(`W ≤ x ∨ w > W.saturating_sub (x+1)`) to the next row, or draw one inter-chip
space; then draw the chip and advance `x` by its width. -/
def flowStep (W : Nat) (s : FlowState) (w : Nat) : FlowState :=
  if 0 < s.x then
    if W ≤ s.x ∨ W - (s.x + 1) < w then
      { x := w, y := s.y + 1, wraps := s.wraps + 1, rows := [w] :: s.rows }
    else
      { s with x := s.x + 1 + w, rows := rowsAppend s.rows w }
  else
    { s with x := s.x + w, rows := rowsAppend s.rows w }

/-- The whole label flow loop over the (padded) chip widths, left to right. -/
def labelFlow (W : Nat) (ws : List Nat) : FlowState :=
  ws.foldl (flowStep W) FlowState.init

/-- The number of rows occupied by the placement: the final row index plus 1. -/
def labelFlowHeight (W : Nat) (ws : List Nat) : Nat :=
  (labelFlow W ws).y + 1

/-- The rows of the placement in top-to-bottom order. -/
def labelFlowRows (W : Nat) (ws : List Nat) : List (List Nat) :=
  (labelFlow W ws).rows.reverse

/-- Columns occupied by a row: the chip widths plus one per inter-chip space. -/
def rowWidth (r : List Nat) : Nat :=
  r.sum + (r.length - 1)

theorem flowStep_y_wraps (W : Nat) (s : FlowState) (w : Nat) :
    (flowStep W s w).y + s.wraps = (flowStep W s w).wraps + s.y := by
  rw [flowStep]
  split_ifs <;> simp <;> omega

theorem flowStep_rows_length (W : Nat) (s : FlowState) (w : Nat) (hs : s.rows ≠ []) :
    (flowStep W s w).rows ≠ [] ∧
    (flowStep W s w).rows.length + s.y = s.rows.length + (flowStep W s w).y := by
  rw [flowStep]
  split_ifs
  · simp
    omega
  · cases hr : s.rows with
    | nil => exact absurd hr hs
    | cons r rest => simp [rowsAppend, hr]
  · cases hr : s.rows with
    | nil => exact absurd hr hs
    | cons r rest => simp [rowsAppend, hr]

theorem labelFlow_y_eq_wraps (W : Nat) (ws : List Nat) :
    ∀ s : FlowState,
      (ws.foldl (flowStep W) s).y + s.wraps = (ws.foldl (flowStep W) s).wraps + s.y := by
  induction ws with
  | nil =>
    intro s
    rw [List.foldl_nil]
    omega
  | cons w t ih =>
    intro s
    rw [List.foldl_cons]
    have h1 := flowStep_y_wraps W s w
    have h2 := ih (flowStep W s w)
    omega

theorem labelFlow_rows_length (W : Nat) (ws : List Nat) :
    ∀ s : FlowState, s.rows ≠ [] →
      (ws.foldl (flowStep W) s).rows ≠ [] ∧
      (ws.foldl (flowStep W) s).rows.length + s.y
        = s.rows.length + (ws.foldl (flowStep W) s).y := by
  induction ws with
  | nil => exact fun s hs => ⟨hs, rfl⟩
  | cons w t ih =>
    intro s hs
    rw [List.foldl_cons]
    obtain ⟨h1, h2⟩ := flowStep_rows_length W s w hs
    obtain ⟨h3, h4⟩ := ih (flowStep W s w) h1
    exact ⟨h3, by omega⟩

/-- **C4**: the height of the label-flow output is `1 +` the number of row
wraps performed by the greedy placement (equivalently, the number of placement
rows), and in the spec's scenario — canvas width 20, padded chip widths
`[5, 13, 4]` — the output height is 2. -/
theorem c4_label_flow_height (W : Nat) (ws : List Nat) :
    labelFlowHeight W ws = 1 + (labelFlow W ws).wraps ∧
    (labelFlow W ws).rows.length = labelFlowHeight W ws ∧
    labelFlowHeight 20 [5, 13, 4] = 2 := by
  refine ⟨?_, ?_, by decide⟩
  · have := labelFlow_y_eq_wraps W ws FlowState.init
    rw [labelFlowHeight, labelFlow]
    rw [show FlowState.init.wraps = 0 from rfl, show FlowState.init.y = 0 from rfl] at this
    omega
  · have := labelFlow_rows_length W ws FlowState.init (by rw [FlowState.init]; simp)
    rw [labelFlowHeight, labelFlow]
    rw [show FlowState.init.rows.length = 1 from rfl, show FlowState.init.y = 0 from rfl] at this
    omega

/-- A legal output row: total occupied width within the canvas width, or a
lone chip wider than the canvas overflowing its own row. -/
def goodRow (W : Nat) (r : List Nat) : Prop :=
  rowWidth r ≤ W ∨ ∃ w, r = [w] ∧ W < w

/-- Invariant across flow iterations: every recorded row is legal, the row
list is non-empty, the cursor is at 0 exactly when the current row is empty,
and on a non-empty current row the cursor equals the row's occupied width. -/
def flowStateOk (W : Nat) (s : FlowState) : Prop :=
  (∀ r ∈ s.rows, goodRow W r) ∧
  match s.rows with
  | [] => False
  | c :: _ => (s.x = 0 ↔ c = []) ∧ (c ≠ [] → s.x = rowWidth c)

theorem flowStateOk_init (W : Nat) : flowStateOk W FlowState.init := by
  constructor
  · intro r hr
    rw [show FlowState.init.rows = [[]] from rfl] at hr
    rw [List.mem_singleton.mp hr]
    left
    simp [rowWidth]
  · exact ⟨by simp [FlowState.init], fun h => absurd rfl h⟩

theorem flowStep_ok (W : Nat) (s : FlowState) (w : Nat) (hw : 1 ≤ w)
    (hs : flowStateOk W s) : flowStateOk W (flowStep W s w) := by
  obtain ⟨hrows, hcur⟩ := hs
  cases hr : s.rows with
  | nil =>
    rw [hr] at hcur
    exact absurd hcur (by simp)
  | cons c rest =>
    rw [hr] at hcur hrows
    obtain ⟨hx0, hxw⟩ := hcur
    rw [flowStep]
    split_ifs with h1 h2
    · -- wrap branch
      constructor
      · intro r hrmem
        rw [hr] at hrmem
        rcases List.mem_cons.mp hrmem with he | hm
        · rw [he]
          by_cases hwW : w ≤ W
          · left
            simp [rowWidth]
            omega
          · right
            exact ⟨w, rfl, by omega⟩
        · exact hrows r hm
      · refine ⟨?_, ?_⟩
        · show w = 0 ↔ [w] = []
          constructor
          · intro h0; omega
          · intro h0; simp at h0
        · intro _
          show w = rowWidth [w]
          simp [rowWidth]
    · -- same-row branch: draw a space then the chip
      have hcne : c ≠ [] := by
        intro he
        rw [hx0.mpr he] at h1
        exact absurd h1 (by omega)
      have hxc := hxw hcne
      have hclen : 1 ≤ c.length := List.length_pos.mpr hcne
      have hrw : rowWidth (c ++ [w]) = s.x + 1 + w := by
        rw [rowWidth] at hxc ⊢
        simp [List.sum_append, List.length_append]
        omega
      have hle : s.x + 1 + w ≤ W := by omega
      constructor
      · intro r hrmem
        rw [hr, rowsAppend] at hrmem
        rcases List.mem_cons.mp hrmem with he | hm
        · rw [he]
          left
          omega
        · exact hrows r (List.mem_cons_of_mem c hm)
      · rw [hr, rowsAppend]
        refine ⟨?_, fun _ => ?_⟩
        · show s.x + 1 + w = 0 ↔ c ++ [w] = []
          constructor
          · intro h0; omega
          · intro h0; simp at h0
        · show s.x + 1 + w = rowWidth (c ++ [w])
          omega
    · -- row-start branch: the current row is empty
      have hc : c = [] := hx0.mp (by omega)
      have hx : s.x = 0 := by omega
      constructor
      · intro r hrmem
        rw [hr, rowsAppend] at hrmem
        rcases List.mem_cons.mp hrmem with he | hm
        · rw [he, hc]
          by_cases hwW : w ≤ W
          · left
            simp [rowWidth]
            omega
          · right
            exact ⟨w, by simp, by omega⟩
        · exact hrows r (List.mem_cons_of_mem c hm)
      · rw [hr, rowsAppend]
        refine ⟨?_, fun _ => ?_⟩
        · show s.x + w = 0 ↔ c ++ [w] = []
          constructor
          · intro h0; omega
          · intro h0; simp at h0
        · show s.x + w = rowWidth (c ++ [w])
          rw [hc]
          simp [rowWidth]
          omega

theorem labelFlow_ok_fold (W : Nat) (ws : List Nat) :
    ∀ s : FlowState, (∀ w ∈ ws, 1 ≤ w) → flowStateOk W s →
      flowStateOk W (ws.foldl (flowStep W) s) := by
  induction ws with
  | nil =>
    intro s _ hs
    rw [List.foldl_nil]
    exact hs
  | cons w t ih =>
    intro s hws hs
    rw [List.foldl_cons]
    exact ih (flowStep W s w) (fun x hx => hws x (List.mem_cons_of_mem w hx))
      (flowStep_ok W s w (hws w (List.mem_cons_self w t)) hs)

theorem flowStep_flatten (W : Nat) (s : FlowState) (w : Nat) (hs : s.rows ≠ []) :
    (flowStep W s w).rows ≠ [] ∧
    (flowStep W s w).rows.reverse.flatten = s.rows.reverse.flatten ++ [w] := by
  rw [flowStep]
  split_ifs
  · constructor
    · simp
    · simp
  · cases hr : s.rows with
    | nil => exact absurd hr hs
    | cons c rest =>
      constructor
      · simp [rowsAppend]
      · rw [rowsAppend]
        simp [List.flatten_append, List.append_assoc]
  · cases hr : s.rows with
    | nil => exact absurd hr hs
    | cons c rest =>
      constructor
      · simp [rowsAppend]
      · rw [rowsAppend]
        simp [List.flatten_append, List.append_assoc]

theorem labelFlow_flatten_fold (W : Nat) (ws : List Nat) :
    ∀ s : FlowState, s.rows ≠ [] →
      (ws.foldl (flowStep W) s).rows ≠ [] ∧
      (ws.foldl (flowStep W) s).rows.reverse.flatten = s.rows.reverse.flatten ++ ws := by
  induction ws with
  | nil =>
    intro s hs
    rw [List.foldl_nil]
    exact ⟨hs, by simp⟩
  | cons w t ih =>
    intro s hs
    rw [List.foldl_cons]
    obtain ⟨h1, h2⟩ := flowStep_flatten W s w hs
    obtain ⟨h3, h4⟩ := ih (flowStep W s w) h1
    refine ⟨h3, ?_⟩
    rw [h4, h2, List.append_assoc]
    rfl

/-- **C5**: with `W ≥ 1` and chips of positive padded width, every output row
of the label flow occupies at most `W` columns (chip widths plus one column per
inter-chip space), except a row holding a single chip wider than `W`, which
overflows its own row; and the rows concatenate back to the input chips — no
chip is split, truncated or dropped. -/
theorem c5_label_flow_row_widths (W : Nat) (ws : List Nat) (hW : 1 ≤ W)
    (hws : ∀ w ∈ ws, 1 ≤ w) :
    (∀ r ∈ labelFlowRows W ws, rowWidth r ≤ W ∨ ∃ w, r = [w] ∧ W < w) ∧
    (labelFlowRows W ws).flatten = ws := by
  constructor
  · have hok := labelFlow_ok_fold W ws FlowState.init hws (flowStateOk_init W)
    intro r hr
    rw [labelFlowRows, labelFlow] at hr
    exact hok.1 r (List.mem_reverse.mp hr)
  · have hfl := (labelFlow_flatten_fold W ws FlowState.init (by simp [FlowState.init])).2
    rw [labelFlowRows, labelFlow, hfl]
    rw [show FlowState.init.rows = [[]] from rfl]
    simp

theorem c5_label_flow_row_widths_witness :
    1 ≤ 20 ∧ (∀ w ∈ [5, 13, 4], 1 ≤ w) ∧
    ((∀ r ∈ labelFlowRows 20 [5, 13, 4], rowWidth r ≤ 20 ∨ ∃ w, r = [w] ∧ 20 < w) ∧
     (labelFlowRows 20 [5, 13, 4]).flatten = [5, 13, 4]) :=
  ⟨by decide, by decide, c5_label_flow_row_widths 20 [5, 13, 4] (by decide) (by decide)⟩

end Zentui
